import Mathlib

/-!
Shallow embedding of `merklificator.py` (code-merklization of traces):
the chunking function `chunkmap_from_bytemap` and the missing-hash counter
`merklize`, with the sparse `RoaringBitmap` presence sets modelled as
`Finset ℕ`.  The Python failure modes (`ValueError` raised by `max()` on an
empty bitmap, `AssertionError`, `ValueError` from `math.log(0)`,
`ZeroDivisionError`, and the `NameError` caused by reading the unbound loop
variable `p` when the level loop never runs) are modelled in an `Except`
monad, so that "the function fails" is expressible as returning `.error`.
-/

/-- Failure modes of the Python functions, by the exception raised. -/
inductive MError where
  | logDomainError
  | zeroDivisionError
  | emptyMaxError
  | assertViolation
  | nameError
deriving DecidableEq

/-- Exact ceiling division on naturals, modelling Python `math.ceil(m / k)`. -/
def ceilDiv (m k : ℕ) : ℕ := (m + k - 1) / k

/-- Model of `RoaringBitmap.clamp(lo, hi)`: the elements lying in `[lo, hi)`. -/
def clampSet (s : Finset ℕ) (lo hi : ℕ) : Finset ℕ :=
  s.filter (fun x => lo ≤ x ∧ x < hi)

/-- Model of `siblings_end = min((p + 1) * arity, theoretical_siblings)`
in `merklize` (the last sibling group of a level may be ragged). -/
def siblingsEnd (arity ts p : ℕ) : ℕ := min ((p + 1) * arity) ts

/-- The list `parents` built by one level of the `merklize` loop: parent
indices `p` below `parents_to_check` whose sibling window `[p*arity,
siblings_end)` has a non-empty overlap with the level map. -/
def levelParents (map : Finset ℕ) (arity ts ptc : ℕ) : List ℕ :=
  (List.range ptc).filter
    (fun p => (clampSet map (p * arity) (siblingsEnd arity ts p)).card ≠ 0)

/-- Total added to `num_hashes` at one level of the `merklize` loop:
`arity - lo` summed over the parents whose overlap has size `lo ≠ 0`. -/
def levelMissing (map : Finset ℕ) (arity ts ptc : ℕ) : ℤ :=
  ((levelParents map arity ts ptc).map
    (fun p =>
      (arity : ℤ) -
        ((clampSet map (p * arity) (siblingsEnd arity ts p)).card : ℤ))).sum

/-- Model of `max_actual_parents = math.ceil((map.max() + 1) / arity)`. -/
def maxActualParents (arity mx : ℕ) : ℕ := ceilDiv (mx + 1) arity

/-- Model of `parents_to_check`: the sparse bound `max_actual_parents`
normally, the full `theoretical_parents` when a visualization file is being
written (`dense`). -/
def parentsToCheck (dense : Bool) (arity : ℕ) (map : Finset ℕ) (ts : ℕ) : ℕ :=
  if dense then ceilDiv ts arity else maxActualParents arity (map.sup id)

/-- The `while theoretical_siblings >= arity` loop of `merklize`.  `a + 2`
is the arity (the wrapper raises before reaching the loop when the arity is
below 2, so the loop is only ever run with arity `≥ 2`); `dense` models
`filename is not None`, which switches `parents_to_check` from the sparse
bound `max_actual_parents` to the full `theoretical_parents`; `map.max()`
on an empty level map raises, and the per-parent
`assert(p < max_actual_parents)` is checked for exactly the parents that
are appended to `parents`. -/
def merklizeLoop (dense : Bool) (a : ℕ) (map : Finset ℕ) (ts : ℕ) (acc : ℤ) :
    Except MError ℤ :=
  if _hgate : a + 2 ≤ ts then
    if map = ∅ then .error .emptyMaxError
    else
      if ∀ p ∈ levelParents map (a + 2) ts (parentsToCheck dense (a + 2) map ts),
          p < maxActualParents (a + 2) (map.sup id) then
        merklizeLoop dense a
          (levelParents map (a + 2) ts (parentsToCheck dense (a + 2) map ts)).toFinset
          (ceilDiv ts (a + 2))
          (acc + levelMissing map (a + 2) ts (parentsToCheck dense (a + 2) map ts))
      else .error .assertViolation
  else .ok acc
termination_by ts
decreasing_by
  have h1 : ts + (a + 2) - 1 = ts + a + 1 := by omega
  have h2 : ts + a + 1 < ts * (a + 2) := by nlinarith
  have h3 : (ts + (a + 2) - 1) / (a + 2) < ts :=
    (Nat.div_lt_iff_lt_mul (by omega)).mpr (by omega)
  exact h3

/-- Model of `merklize(chunkmap, arity, max_theoretical_chunks, filename)`:
`dense` is `filename is not None`; the result is the returned hash count or
the exception raised.  The Python evaluation order is kept: `math.log`
raises on `max_theoretical_chunks = 0` and on `arity = 0`, the division of
logs raises on `arity = 1`, then `assert(chunkmap.max() <
max_theoretical_chunks)` raises on an empty chunkmap (from `max()`) or on a
violated bound, then the level loop runs, and finally the root label
`f"L{current_level}_{p}"` raises `NameError` when the loop body never
executed (`max_theoretical_chunks < arity`) because `p` was never bound. -/
def merklize (chunkmap : Finset ℕ) (arity mtc : ℕ) (dense : Bool) :
    Except MError ℤ :=
  if mtc = 0 then .error .logDomainError
  else if arity = 0 then .error .logDomainError
  else if arity = 1 then .error .zeroDivisionError
  else if chunkmap = ∅ then .error .emptyMaxError
  else if chunkmap.sup id < mtc then
    match merklizeLoop dense (arity - 2) chunkmap mtc 0 with
    | .error e => .error e
    | .ok n => if mtc < arity then .error .nameError else .ok n
  else .error .assertViolation

/-- The general per-chunk path of `chunkmap_from_bytemap` (its `else`
branch): scan chunk indices `c` from `0` to `max_contract_chunk =
bytemap.max() // chunk_size` inclusive and keep those whose byte window
`[c*chunk_size, (c+1)*chunk_size)` overlaps the bytemap.  (`Finset.sup id`
is `bytemap.max()` for the non-empty sets on which this path is reached.) -/
def chunkmapGeneral (bytemap : Finset ℕ) (chunk_size : ℕ) : Finset ℕ :=
  (Finset.range (bytemap.sup id / chunk_size + 1)).filter
    (fun c => (clampSet bytemap (c * chunk_size) ((c + 1) * chunk_size)).card ≠ 0)

/-- Model of `chunkmap_from_bytemap(bytemap, chunk_size)`.  `none` models
the exceptions raised while computing `max_contract_chunk = bytemap.max()
// chunk_size` (which the source computes before the `chunk_size == 1`
special case): `ValueError` from `max()` on an empty bytemap, then
`ZeroDivisionError` on a zero chunk size. -/
def chunkmap_from_bytemap (bytemap : Finset ℕ) (chunk_size : ℕ) :
    Option (Finset ℕ) :=
  if bytemap = ∅ then none
  else if chunk_size = 0 then none
  else if chunk_size = 1 then some bytemap
  else some (chunkmapGeneral bytemap chunk_size)

section ArithLemmas

/-- Ceiling division strictly shrinks its argument while it is at least the
divisor: the loop measure of `merklize` decreases. -/
lemma ceilDiv_lt_self {n k : ℕ} (hk : 2 ≤ k) (hn : k ≤ n) : ceilDiv n k < n := by
  obtain ⟨a, rfl⟩ : ∃ a, k = a + 2 := ⟨k - 2, by omega⟩
  have h2 : n + a + 1 < n * (a + 2) := by nlinarith
  exact (Nat.div_lt_iff_lt_mul (by omega)).mpr (by omega)

lemma le_ceilDiv_mul {n k : ℕ} (hk : 1 ≤ k) : n ≤ ceilDiv n k * k := by
  have h := Nat.lt_div_mul_add (a := n + k - 1) hk
  unfold ceilDiv
  omega

lemma ceilDiv_mono {m n k : ℕ} (h : m ≤ n) : ceilDiv m k ≤ ceilDiv n k :=
  Nat.div_le_div_right (by omega)

lemma ceilDiv_pos {n k : ℕ} (hn : 1 ≤ n) (hk : 1 ≤ k) : 1 ≤ ceilDiv n k := by
  unfold ceilDiv
  rw [Nat.le_div_iff_mul_le hk]
  omega

lemma div_lt_ceilDiv {m n k : ℕ} (hk : 1 ≤ k) (h : m < n) :
    m / k < ceilDiv n k := by
  have h1 : m / k * k ≤ m := Nat.div_mul_le_self m k
  have h2 : n ≤ ceilDiv n k * k := le_ceilDiv_mul hk
  have h3 : m / k * k < ceilDiv n k * k := by omega
  exact lt_of_mul_lt_mul_right h3 (Nat.zero_le k)

end ArithLemmas

section SetLemmas

lemma mem_clampSet {s : Finset ℕ} {lo hi x : ℕ} :
    x ∈ clampSet s lo hi ↔ x ∈ s ∧ lo ≤ x ∧ x < hi := by
  simp [clampSet]

lemma clampSet_card_le (s : Finset ℕ) (lo hi : ℕ) :
    (clampSet s lo hi).card ≤ hi - lo := by
  have h : clampSet s lo hi ⊆ Finset.Ico lo hi := by
    intro x hx
    rcases mem_clampSet.1 hx with ⟨-, h1, h2⟩
    exact Finset.mem_Ico.mpr ⟨h1, h2⟩
  calc (clampSet s lo hi).card ≤ (Finset.Ico lo hi).card := Finset.card_le_card h
    _ = hi - lo := Nat.card_Ico lo hi

lemma sup_id_mem {s : Finset ℕ} (h : s.Nonempty) : s.sup id ∈ s := by
  have h1 := Finset.max'_mem s h
  rwa [Finset.max', Finset.sup'_eq_sup] at h1

lemma le_sup_id {s : Finset ℕ} {x : ℕ} (hx : x ∈ s) : x ≤ s.sup id :=
  Finset.le_sup (f := id) hx

lemma min_untop_mem {t : Finset ℕ} (h : t.Nonempty) :
    t.min.untop' 0 ∈ t := by
  obtain ⟨a, ha⟩ := Finset.min_of_nonempty h
  rw [ha]
  exact Finset.mem_of_min ha

end SetLemmas

section LevelLemmas

lemma mem_levelParents {map : Finset ℕ} {arity ts ptc p : ℕ} :
    p ∈ levelParents map arity ts ptc ↔
      p < ptc ∧ (clampSet map (p * arity) (siblingsEnd arity ts p)).Nonempty := by
  simp [levelParents, List.mem_filter, ← Finset.card_ne_zero]

lemma levelParents_nodup (map : Finset ℕ) (arity ts ptc : ℕ) :
    (levelParents map arity ts ptc).Nodup :=
  List.Nodup.filter _ (List.nodup_range ptc)

lemma levelParents_length (map : Finset ℕ) (arity ts ptc : ℕ) :
    (levelParents map arity ts ptc).toFinset.card =
      (levelParents map arity ts ptc).length :=
  List.toFinset_card_of_nodup (levelParents_nodup map arity ts ptc)

/-- Each parent appended at a level is witnessed by at least one present
child in its disjoint sibling window, so a level never has more parents
than the level below has nodes. -/
lemma parentsCard_le {map : Finset ℕ} {arity ts ptc : ℕ} :
    (levelParents map arity ts ptc).toFinset.card ≤ map.card := by
  apply Finset.card_le_card_of_injOn
    (fun p => (clampSet map (p * arity) (siblingsEnd arity ts p)).min.untop' 0)
  · intro p hp
    obtain ⟨-, hne⟩ := mem_levelParents.1 (List.mem_toFinset.1 hp)
    exact (mem_clampSet.1 (min_untop_mem hne)).1
  · intro p1 hp1 p2 hp2 heq
    simp only [Finset.coe_sort_coe, List.coe_toFinset, Set.mem_setOf_eq] at hp1 hp2
    obtain ⟨-, hne1⟩ := mem_levelParents.1 hp1
    obtain ⟨-, hne2⟩ := mem_levelParents.1 hp2
    obtain ⟨-, hlo1, hhi1⟩ := mem_clampSet.1 (min_untop_mem hne1)
    obtain ⟨-, hlo2, hhi2⟩ := mem_clampSet.1 (min_untop_mem hne2)
    have hhi1' : (clampSet map (p1 * arity) (siblingsEnd arity ts p1)).min.untop' 0
        < (p1 + 1) * arity := lt_of_lt_of_le hhi1 (min_le_left _ _)
    have hhi2' : (clampSet map (p2 * arity) (siblingsEnd arity ts p2)).min.untop' 0
        < (p2 + 1) * arity := lt_of_lt_of_le hhi2 (min_le_left _ _)
    have e1 := Nat.div_eq_of_lt_le hlo1 hhi1'
    have e2 := Nat.div_eq_of_lt_le hlo2 hhi2'
    have heq' : ((clampSet map (p1 * arity) (siblingsEnd arity ts p1)).min.untop' 0)
        = ((clampSet map (p2 * arity) (siblingsEnd arity ts p2)).min.untop' 0) := heq
    rw [heq'] at e1
    omega

/-- The parent of the maximum element of the level map is always recorded,
provided it lies below the scanned bound. -/
lemma q_mem_levelParents {map : Finset ℕ} {arity ts ptc : ℕ} (ha : 1 ≤ arity)
    (hne : map.Nonempty) (hts : map.sup id < ts)
    (hq : map.sup id / arity < ptc) :
    map.sup id / arity ∈ levelParents map arity ts ptc := by
  rw [mem_levelParents]
  refine ⟨hq, ⟨map.sup id, ?_⟩⟩
  rw [mem_clampSet]
  refine ⟨sup_id_mem hne, Nat.div_mul_le_self _ _, ?_⟩
  rw [siblingsEnd, lt_min_iff]
  constructor
  · have h1 := Nat.lt_div_mul_add (a := map.sup id) ha
    have h2 : (map.sup id / arity + 1) * arity = map.sup id / arity * arity + arity := by
      ring
    omega
  · exact hts

/-- Every recorded parent is below `max_actual_parents`: the per-parent
`assert` in the loop body never fires. -/
lemma parents_lt_maxActual {map : Finset ℕ} {arity ts ptc : ℕ} (ha : 1 ≤ arity) :
    ∀ p ∈ levelParents map arity ts ptc,
      p < maxActualParents arity (map.sup id) := by
  intro p hp
  obtain ⟨-, x, hx⟩ := mem_levelParents.1 hp
  obtain ⟨hxm, hlo, -⟩ := mem_clampSet.1 hx
  have h1 : p * arity ≤ map.sup id := le_trans hlo (le_sup_id hxm)
  have h2 : p ≤ map.sup id / arity := (Nat.le_div_iff_mul_le ha).mpr h1
  have h3 : map.sup id / arity < ceilDiv (map.sup id + 1) arity :=
    div_lt_ceilDiv ha (Nat.lt_succ_self _)
  unfold maxActualParents
  omega

lemma newSup_lt {P : Finset ℕ} {B : ℕ} (hne : P.Nonempty)
    (hb : ∀ p ∈ P, p < B) : P.sup id < B := by
  obtain ⟨x, hx⟩ := hne
  have hB : 0 < B := lt_of_le_of_lt (Nat.zero_le x) (hb x hx)
  exact (Finset.sup_lt_iff hB).mpr hb

/-- The sparse scan bound never exceeds the dense scan bound on a level
whose maximum node index is inside the theoretical width. -/
lemma maxActual_le_theo {arity mx ts : ℕ} (h : mx < ts) :
    maxActualParents arity mx ≤ ceilDiv ts arity :=
  ceilDiv_mono (by omega)

lemma sup_div_lt_ptc {map : Finset ℕ} {arity ts : ℕ} (ha : 1 ≤ arity)
    (hts : map.sup id < ts) (dense : Bool) :
    map.sup id / arity < parentsToCheck dense arity map ts := by
  unfold parentsToCheck
  cases dense
  · exact div_lt_ceilDiv ha (Nat.lt_succ_self _)
  · exact div_lt_ceilDiv ha hts

lemma step_nonempty {map : Finset ℕ} {arity ts : ℕ} (ha : 1 ≤ arity)
    (hne : map.Nonempty) (hts : map.sup id < ts) (dense : Bool) :
    (levelParents map arity ts (parentsToCheck dense arity map ts)).toFinset.Nonempty :=
  ⟨_, List.mem_toFinset.2
    (q_mem_levelParents ha hne hts (sup_div_lt_ptc ha hts dense))⟩

lemma step_sup_lt {map : Finset ℕ} {arity ts : ℕ} (ha : 1 ≤ arity)
    (hne : map.Nonempty) (hts : map.sup id < ts) (dense : Bool) :
    (levelParents map arity ts (parentsToCheck dense arity map ts)).toFinset.sup id
      < ceilDiv ts arity := by
  apply newSup_lt (step_nonempty ha hne hts dense)
  intro p hp
  have h1 := parents_lt_maxActual ha p (List.mem_toFinset.1 hp)
  have h2 := @maxActual_le_theo arity (map.sup id) ts hts
  omega

end LevelLemmas

section MissingLemmas

lemma card_window_le {map : Finset ℕ} {arity ts p : ℕ} :
    (clampSet map (p * arity) (siblingsEnd arity ts p)).card ≤ arity := by
  have h1 := clampSet_card_le map (p * arity) (siblingsEnd arity ts p)
  have h2 : siblingsEnd arity ts p ≤ (p + 1) * arity := min_le_left _ _
  have h3 : (p + 1) * arity = p * arity + arity := by ring
  omega

lemma levelMissing_nonneg (map : Finset ℕ) (arity ts ptc : ℕ) :
    0 ≤ levelMissing map arity ts ptc := by
  unfold levelMissing
  apply List.sum_nonneg
  intro x hx
  simp only [List.mem_map] at hx
  obtain ⟨p, hp, rfl⟩ := hx
  have h1 := @card_window_le map arity ts p
  have h2 : ((clampSet map (p * arity) (siblingsEnd arity ts p)).card : ℤ)
      ≤ (arity : ℤ) := by exact_mod_cast h1
  linarith

lemma levelMissing_le (map : Finset ℕ) (arity ts ptc : ℕ) :
    levelMissing map arity ts ptc ≤
      ((levelParents map arity ts ptc).length : ℤ) * ((arity : ℤ) - 1) := by
  unfold levelMissing
  have h := List.sum_le_card_nsmul
    ((levelParents map arity ts ptc).map
      (fun p => (arity : ℤ) -
        ((clampSet map (p * arity) (siblingsEnd arity ts p)).card : ℤ)))
    ((arity : ℤ) - 1) ?_
  · rwa [List.length_map, nsmul_eq_mul] at h
  · intro x hx
    simp only [List.mem_map] at hx
    obtain ⟨p, hp, rfl⟩ := hx
    obtain ⟨-, hne⟩ := mem_levelParents.1 hp
    have h1 : 1 ≤ (clampSet map (p * arity) (siblingsEnd arity ts p)).card :=
      Finset.card_pos.mpr hne
    have h2 : (1 : ℤ) ≤ ((clampSet map (p * arity) (siblingsEnd arity ts p)).card : ℤ) := by
      exact_mod_cast h1
    linarith

end MissingLemmas

section LoopLemmas

/-- On a valid level (non-empty map whose maximum lies inside the
theoretical width) the loop never raises: the per-parent assert always
holds and the level invariant is preserved down to the root. -/
lemma merklizeLoop_ok (dense : Bool) (a : ℕ) :
    ∀ ts (map : Finset ℕ) (acc : ℤ), map.Nonempty → map.sup id < ts →
      ∃ n, merklizeLoop dense a map ts acc = Except.ok n := by
  intro ts
  induction ts using Nat.strong_induction_on with
  | _ ts ih =>
    intro map acc hne hsup
    by_cases hts : a + 2 ≤ ts
    · rw [merklizeLoop, dif_pos hts, if_neg (Finset.nonempty_iff_ne_empty.1 hne),
        if_pos (parents_lt_maxActual (by omega))]
      exact ih (ceilDiv ts (a + 2)) (ceilDiv_lt_self (by omega) hts) _ _
        (step_nonempty (by omega) hne hsup dense)
        (step_sup_lt (by omega) hne hsup dense)
    · rw [merklizeLoop, dif_neg hts]
      exact ⟨acc, rfl⟩

lemma filter_range_congr {pred : ℕ → Bool} {m t : ℕ} (h : m ≤ t)
    (hfalse : ∀ p, m ≤ p → p < t → ¬pred p = true) :
    (List.range t).filter pred = (List.range m).filter pred := by
  obtain ⟨k, rfl⟩ : ∃ k, t = m + k := ⟨t - m, by omega⟩
  rw [List.range_add, List.filter_append]
  have h2 : (List.map (fun i => m + i) (List.range k)).filter pred = [] := by
    rw [List.filter_eq_nil_iff]
    intro x hx
    simp only [List.mem_map, List.mem_range] at hx
    obtain ⟨i, hi, rfl⟩ := hx
    exact hfalse (m + i) (by omega) (by omega)
  rw [h2, List.append_nil]

/-- Scanning densely up to `theoretical_parents` finds exactly the parents
the sparse scan up to `max_actual_parents` finds: the extra windows lie
wholly above the level's maximum element, so their overlaps are empty. -/
lemma levelParents_dense_eq {map : Finset ℕ} {arity ts : ℕ} (ha : 1 ≤ arity)
    (hsup : map.sup id < ts) :
    levelParents map arity ts (ceilDiv ts arity)
      = levelParents map arity ts (maxActualParents arity (map.sup id)) := by
  unfold levelParents
  apply filter_range_congr (maxActual_le_theo hsup)
  intro p hp1 hp2
  have hempty : clampSet map (p * arity) (siblingsEnd arity ts p) = ∅ := by
    apply Finset.eq_empty_iff_forall_not_mem.mpr
    intro x hx
    obtain ⟨hxm, hlo, -⟩ := mem_clampSet.1 hx
    have h1 : map.sup id + 1 ≤ maxActualParents arity (map.sup id) * arity :=
      le_ceilDiv_mul ha
    have h2 : maxActualParents arity (map.sup id) * arity ≤ p * arity :=
      Nat.mul_le_mul_right arity hp1
    have h3 : x ≤ map.sup id := le_sup_id hxm
    omega
  simp [hempty]

lemma levelMissing_congr {map : Finset ℕ} {arity ts ptc1 ptc2 : ℕ}
    (h : levelParents map arity ts ptc1 = levelParents map arity ts ptc2) :
    levelMissing map arity ts ptc1 = levelMissing map arity ts ptc2 := by
  unfold levelMissing
  rw [h]

/-- Attaching the visualization observer (dense traversal) changes nothing
about the loop's result on valid levels. -/
lemma merklizeLoop_denseEq (a : ℕ) :
    ∀ ts (map : Finset ℕ) (acc : ℤ), map.Nonempty → map.sup id < ts →
      merklizeLoop true a map ts acc = merklizeLoop false a map ts acc := by
  intro ts
  induction ts using Nat.strong_induction_on with
  | _ ts ih =>
    intro map acc hne hsup
    by_cases hts : a + 2 ≤ ts
    · have hP : levelParents map (a + 2) ts (parentsToCheck true (a + 2) map ts)
          = levelParents map (a + 2) ts (parentsToCheck false (a + 2) map ts) := by
        show levelParents map (a + 2) ts (ceilDiv ts (a + 2))
          = levelParents map (a + 2) ts (maxActualParents (a + 2) (map.sup id))
        exact levelParents_dense_eq (by omega) hsup
      conv_lhs => rw [merklizeLoop]
      rw [dif_pos hts, if_neg (Finset.nonempty_iff_ne_empty.1 hne),
        hP, levelMissing_congr hP]
      conv_rhs => rw [merklizeLoop]
      rw [dif_pos hts, if_neg (Finset.nonempty_iff_ne_empty.1 hne)]
      by_cases hc : ∀ p ∈ levelParents map (a + 2) ts (parentsToCheck false (a + 2) map ts),
          p < maxActualParents (a + 2) (map.sup id)
      · rw [if_pos hc, if_pos hc]
        exact ih _ (ceilDiv_lt_self (by omega) hts) _ _
          (step_nonempty (by omega) hne hsup false)
          (step_sup_lt (by omega) hne hsup false)
      · rw [if_neg hc, if_neg hc]
    · conv_lhs => rw [merklizeLoop]
      conv_rhs => rw [merklizeLoop]
      rw [dif_neg hts, dif_neg hts]

/-- The accumulated total only grows, and each level adds at most
`cardinality * (arity - 1)`, across at most `clog arity ts` levels. -/
lemma merklizeLoop_bound (dense : Bool) (a : ℕ) :
    ∀ ts (map : Finset ℕ) (acc n : ℤ), map.Nonempty → map.sup id < ts →
      merklizeLoop dense a map ts acc = Except.ok n →
      acc ≤ n ∧
        n ≤ acc + (map.card : ℤ) * ((a : ℤ) + 1) * (Nat.clog (a + 2) ts : ℤ) := by
  intro ts
  induction ts using Nat.strong_induction_on with
  | _ ts ih =>
    intro map acc n hne hsup hrun
    by_cases hts : a + 2 ≤ ts
    · rw [merklizeLoop, dif_pos hts, if_neg (Finset.nonempty_iff_ne_empty.1 hne),
        if_pos (parents_lt_maxActual (by omega))] at hrun
      obtain ⟨hl, hr⟩ := ih _ (ceilDiv_lt_self (by omega) hts) _ _ n
        (step_nonempty (by omega) hne hsup dense)
        (step_sup_lt (by omega) hne hsup dense) hrun
      have h0 : 0 ≤ levelMissing map (a + 2) ts (parentsToCheck dense (a + 2) map ts) :=
        levelMissing_nonneg _ _ _ _
      have hlen := levelParents_length map (a + 2) ts (parentsToCheck dense (a + 2) map ts)
      have h1 := levelMissing_le map (a + 2) ts (parentsToCheck dense (a + 2) map ts)
      rw [← hlen] at h1
      have h2 : ((levelParents map (a + 2) ts
          (parentsToCheck dense (a + 2) map ts)).toFinset.card : ℤ)
          ≤ (map.card : ℤ) := by exact_mod_cast parentsCard_le
      have hclog : Nat.clog (a + 2) ts = Nat.clog (a + 2) (ceilDiv ts (a + 2)) + 1 :=
        Nat.clog_of_two_le (by omega) (by omega)
      have hclognn : (0 : ℤ) ≤ (Nat.clog (a + 2) (ceilDiv ts (a + 2)) : ℤ) := by
        positivity
      have hcast : ((a + 2 : ℕ) : ℤ) - 1 = (a : ℤ) + 1 := by push_cast; ring
      rw [hcast] at h1
      have hanonneg : (0 : ℤ) ≤ (a : ℤ) + 1 := by positivity
      have h3 : ((levelParents map (a + 2) ts
          (parentsToCheck dense (a + 2) map ts)).toFinset.card : ℤ) * ((a : ℤ) + 1)
          ≤ (map.card : ℤ) * ((a : ℤ) + 1) :=
        mul_le_mul_of_nonneg_right h2 hanonneg
      have h4 : ((levelParents map (a + 2) ts
          (parentsToCheck dense (a + 2) map ts)).toFinset.card : ℤ) * ((a : ℤ) + 1)
            * (Nat.clog (a + 2) (ceilDiv ts (a + 2)) : ℤ)
          ≤ (map.card : ℤ) * ((a : ℤ) + 1)
            * (Nat.clog (a + 2) (ceilDiv ts (a + 2)) : ℤ) :=
        mul_le_mul_of_nonneg_right h3 hclognn
      rw [hclog]
      constructor
      · linarith
      · have hring : (map.card : ℤ) * ((a : ℤ) + 1)
            * ((Nat.clog (a + 2) (ceilDiv ts (a + 2)) : ℤ) + 1)
            = (map.card : ℤ) * ((a : ℤ) + 1)
              * (Nat.clog (a + 2) (ceilDiv ts (a + 2)) : ℤ)
              + (map.card : ℤ) * ((a : ℤ) + 1) := by ring
        push_cast
        linarith
    · rw [merklizeLoop, dif_neg hts] at hrun
      have hacc : acc = n := by
        injection hrun
      subst hacc
      constructor
      · exact le_refl acc
      · have hp : (0 : ℤ) ≤ (map.card : ℤ) * ((a : ℤ) + 1) * (Nat.clog (a + 2) ts : ℤ) := by
          positivity
        linarith

end LoopLemmas

section Claims

/-- C1: the spec's failure contract for `merklize` (fail only when the
chunk set is non-empty with `max_element ≥ max_theoretical_chunks`; return
0 on an empty chunk set) is violated by the source: on an empty chunk set
`chunkmap.max()` raises, and on the valid input `{0}, arity = 2,
max_theoretical_chunks = 1` the unbound loop variable `p` raises
`NameError` when the root label is built. -/
theorem claim_c1_code_bug :
    merklize ∅ 2 4 false = Except.error MError.emptyMaxError ∧
    merklize {0} 2 1 false = Except.error MError.nameError := by
  constructor <;>
    simp +decide [merklize, merklizeLoop, levelParents, levelMissing,
      clampSet, siblingsEnd, maxActualParents, parentsToCheck, ceilDiv]

/-- C2: for a non-empty byte set and chunk size at least 2,
`chunkmap_from_bytemap` takes the general path and returns exactly the
chunk indices `c ≤ max(B) / chunk_size` whose byte window `[c*chunk_size,
(c+1)*chunk_size)` intersects `B`; the scanned range itself stops at
`max(B) / chunk_size`. -/
theorem claim_c2 (B : Finset ℕ) (s : ℕ) (hB : B.Nonempty) (hs : 2 ≤ s) :
    chunkmap_from_bytemap B s = some (chunkmapGeneral B s) ∧
    ∀ c, c ∈ chunkmapGeneral B s ↔
      (c ≤ B.sup id / s ∧ ∃ b ∈ B, c * s ≤ b ∧ b < (c + 1) * s) := by
  constructor
  · unfold chunkmap_from_bytemap
    rw [if_neg (Finset.nonempty_iff_ne_empty.1 hB), if_neg (by omega),
      if_neg (by omega)]
  · intro c
    unfold chunkmapGeneral
    simp only [Finset.mem_filter, Finset.mem_range]
    constructor
    · rintro ⟨h1, h2⟩
      refine ⟨by omega, ?_⟩
      obtain ⟨b, hb⟩ := Finset.card_ne_zero.1 h2
      obtain ⟨hbm, hlo, hhi⟩ := mem_clampSet.1 hb
      exact ⟨b, hbm, hlo, hhi⟩
    · rintro ⟨h1, b, hbm, hlo, hhi⟩
      refine ⟨by omega, ?_⟩
      exact Finset.card_ne_zero.2 ⟨b, mem_clampSet.2 ⟨hbm, hlo, hhi⟩⟩

theorem claim_c2_witness :
    chunkmap_from_bytemap {0, 5, 31, 32} 32
        = some (chunkmapGeneral {0, 5, 31, 32} 32) ∧
    chunkmapGeneral {0, 5, 31, 32} 32 = {0, 1} :=
  ⟨(claim_c2 {0, 5, 31, 32} 32 (by decide) (by decide)).1, by decide⟩

/-- C3: `merklize` returns 2 on chunk set `{0}` and 1 on chunk set `{0,1}`
with arity 2 and 4 theoretical chunks. -/
theorem claim_c3 :
    merklize {0} 2 4 false = Except.ok 2 ∧
    merklize {0, 1} 2 4 false = Except.ok 1 := by
  constructor <;>
    simp +decide [merklize, merklizeLoop, levelParents, levelMissing,
      clampSet, siblingsEnd, maxActualParents, parentsToCheck, ceilDiv]

/-- C4: on valid inputs every value `merklize` returns is non-negative and
at most `cardinality(chunk_set) * (arity - 1) * ceil(log_arity
max_theoretical_chunks)`. -/
theorem claim_c4 {S : Finset ℕ} {arity mtc : ℕ} (h2 : 2 ≤ arity)
    (hne : S.Nonempty) (hsup : S.sup id < mtc) :
    ∀ n : ℤ, merklize S arity mtc false = Except.ok n →
      0 ≤ n ∧ n ≤ ((S.card * (arity - 1) * Nat.clog arity mtc : ℕ) : ℤ) := by
  intro n hn
  unfold merklize at hn
  rw [if_neg (by omega), if_neg (by omega), if_neg (by omega),
    if_neg (Finset.nonempty_iff_ne_empty.1 hne), if_pos hsup] at hn
  cases hrun : merklizeLoop false (arity - 2) S mtc 0 with
  | error e =>
    rw [hrun] at hn
    exact absurd hn (by simp)
  | ok m =>
    rw [hrun] at hn
    have hn' : (if mtc < arity then Except.error MError.nameError
        else Except.ok m) = Except.ok n := hn
    by_cases hlt : mtc < arity
    · rw [if_pos hlt] at hn'
      exact absurd hn' (by simp)
    · rw [if_neg hlt] at hn'
      have hmn : m = n := by injection hn'
      obtain ⟨a, ha⟩ : ∃ a, arity = a + 2 := ⟨arity - 2, by omega⟩
      have ha2 : arity - 2 = a := by omega
      rw [ha2] at hrun
      obtain ⟨hl, hr⟩ := merklizeLoop_bound false a mtc S 0 m hne hsup hrun
      subst ha
      have hsub : a + 2 - 1 = a + 1 := by omega
      rw [hsub]
      constructor
      · omega
      · push_cast
        linarith [hr, hmn.symm.le]

theorem claim_c4_witness :
    (0 : ℤ) ≤ (2 : ℤ) ∧
    (2 : ℤ) ≤ ((Finset.card ({0} : Finset ℕ) * (2 - 1) * Nat.clog 2 4 : ℕ) : ℤ) :=
  @claim_c4 {0} 2 4 (by decide) (by decide) (by decide) 2
    (by simp +decide [merklize, merklizeLoop, levelParents, levelMissing,
      clampSet, siblingsEnd, maxActualParents, parentsToCheck, ceilDiv])

/-- C5: the spec's identity `derive_chunkmap(B, 1) = B` for arbitrary `B`
fails in the source at `B = ∅`: `max_contract_chunk = bytemap.max() //
chunk_size` is computed before the `chunk_size == 1` special case (and is
not even used by it), so `max()` raises on the empty set instead of
returning the set unchanged. -/
theorem claim_c5_code_bug :
    chunkmap_from_bytemap (∅ : Finset ℕ) 1 = none ∧
    chunkmap_from_bytemap (∅ : Finset ℕ) 1 ≠ some ∅ := by
  constructor <;> decide

/-- C6: on every non-empty byte set and chunk size at least 1, the bytes
covered by the returned chunks are at least the executed bytes:
`cardinality(chunkmap) * chunk_size ≥ cardinality(bytemap)`. -/
theorem claim_c6 {B : Finset ℕ} {s : ℕ} (hB : B.Nonempty) (hs : 1 ≤ s) :
    ∀ M, chunkmap_from_bytemap B s = some M → B.card ≤ M.card * s := by
  intro M hM
  unfold chunkmap_from_bytemap at hM
  rw [if_neg (Finset.nonempty_iff_ne_empty.1 hB), if_neg (by omega)] at hM
  by_cases hs1 : s = 1
  · rw [if_pos hs1] at hM
    have hBM : B = M := by injection hM
    subst hBM
    subst hs1
    omega
  · rw [if_neg hs1] at hM
    have hBM : chunkmapGeneral B s = M := by injection hM
    subst hBM
    have hsub : B ⊆ (chunkmapGeneral B s).biUnion
        (fun c => Finset.Ico (c * s) ((c + 1) * s)) := by
      intro b hb
      rw [Finset.mem_biUnion]
      have h1 := Nat.lt_div_mul_add (a := b) (show 0 < s by omega)
      have h2 : (b / s + 1) * s = b / s * s + s := by ring
      refine ⟨b / s, ?_, ?_⟩
      · unfold chunkmapGeneral
        rw [Finset.mem_filter, Finset.mem_range]
        refine ⟨?_, ?_⟩
        · have h3 : b / s ≤ B.sup id / s := Nat.div_le_div_right (le_sup_id hb)
          omega
        · exact Finset.card_ne_zero.2
            ⟨b, mem_clampSet.2 ⟨hb, Nat.div_mul_le_self b s, by omega⟩⟩
      · exact Finset.mem_Ico.mpr ⟨Nat.div_mul_le_self b s, by omega⟩
    calc B.card
        ≤ ((chunkmapGeneral B s).biUnion
            (fun c => Finset.Ico (c * s) ((c + 1) * s))).card :=
          Finset.card_le_card hsub
      _ ≤ ∑ c ∈ chunkmapGeneral B s, (Finset.Ico (c * s) ((c + 1) * s)).card :=
          Finset.card_biUnion_le
      _ = ∑ c ∈ chunkmapGeneral B s, s := by
          apply Finset.sum_congr rfl
          intro c hc
          rw [Nat.card_Ico]
          have h4 : (c + 1) * s = c * s + s := by ring
          omega
      _ = (chunkmapGeneral B s).card * s := by
          rw [Finset.sum_const, smul_eq_mul]

theorem claim_c6_witness :
    Finset.card ({0, 5, 31, 32} : Finset ℕ) ≤ Finset.card ({0, 1} : Finset ℕ) * 32 :=
  @claim_c6 {0, 5, 31, 32} 32 (by decide) (by decide) {0, 1} (by decide)

/-- C7: on valid inputs, attaching the visualization observer (dense
traversal up to `theoretical_parents`) changes neither the value `merklize`
returns nor the parent set recorded at any valid level: the dense and
sparse scans of a level produce the same parent list. -/
theorem claim_c7 {S : Finset ℕ} {arity mtc : ℕ} (h2 : 2 ≤ arity)
    (hne : S.Nonempty) (hsup : S.sup id < mtc) :
    merklize S arity mtc true = merklize S arity mtc false ∧
    ∀ (map : Finset ℕ) (ts : ℕ), map.Nonempty → map.sup id < ts →
      levelParents map arity ts (ceilDiv ts arity)
        = levelParents map arity ts (maxActualParents arity (map.sup id)) := by
  constructor
  · unfold merklize
    rw [merklizeLoop_denseEq (arity - 2) mtc S 0 hne hsup]
  · intro map ts hmne hmsup
    exact levelParents_dense_eq (by omega) hmsup

theorem claim_c7_witness :
    merklize {0} 2 4 true = merklize {0} 2 4 false :=
  (@claim_c7 {0} 2 4 (by decide) (by decide) (by decide)).1

/-- C8: the level loop of `merklize` terminates because the theoretical
width is replaced by its ceiling division by the arity, which strictly
decreases while the width is at least the arity; as soon as the width drops
below the arity the loop returns the accumulated total unchanged. -/
theorem claim_c8 {arity : ℕ} (h2 : 2 ≤ arity) :
    (∀ ts, arity ≤ ts → ceilDiv ts arity < ts) ∧
    (∀ (dense : Bool) (map : Finset ℕ) (acc : ℤ) (ts : ℕ), ts < arity →
      merklizeLoop dense (arity - 2) map ts acc = Except.ok acc) := by
  constructor
  · intro ts hts
    exact ceilDiv_lt_self h2 hts
  · intro dense map acc ts hts
    rw [merklizeLoop, dif_neg (by omega)]

theorem claim_c8_witness :
    ceilDiv 4 2 < 4 ∧
    merklizeLoop false (2 - 2) ∅ 1 5 = Except.ok 5 :=
  ⟨(@claim_c8 2 (by decide)).1 4 (by decide),
    (@claim_c8 2 (by decide)).2 false ∅ 5 1 (by decide)⟩

/-- C9 counterexample: the parent set derived from the level-0 set `{0,2}`
(arity 2, width 4) inside a successful run of `merklize` has cardinality 2,
which exceeds `cardinality({0,2}) / arity = 1`: a level's parent set can be
as large as the level below it, not at most its arity-th part. -/
theorem claim_c9_counterexample :
    merklize {0, 2} 2 4 false = Except.ok 2 ∧
    (levelParents {0, 2} 2 4 (parentsToCheck false 2 {0, 2} 4)).toFinset.card = 2 ∧
    ({0, 2} : Finset ℕ).card = 2 ∧
    ¬((levelParents {0, 2} 2 4 (parentsToCheck false 2 {0, 2} 4)).toFinset.card
        ≤ ({0, 2} : Finset ℕ).card / 2) := by
  refine ⟨?_, by decide, by decide, by decide⟩
  simp +decide [merklize, merklizeLoop, levelParents, levelMissing,
    clampSet, siblingsEnd, maxActualParents, parentsToCheck, ceilDiv]

/-- C9 amended: at every level transition the derived parent set is no
larger than the presence set of the level below (each parent owns at least
one present child in its disjoint sibling window). -/
theorem claim_c9_amended {map : Finset ℕ} {arity ts ptc : ℕ} (_h2 : 2 ≤ arity) :
    (levelParents map arity ts ptc).toFinset.card ≤ map.card :=
  parentsCard_le

theorem claim_c9_witness :
    (levelParents {0, 2} 2 4 2).toFinset.card ≤ ({0, 2} : Finset ℕ).card :=
  @claim_c9_amended {0, 2} 2 4 2 (by decide)

/-- C10: on a valid non-empty chunk set whose domain bound is below the
arity, the level loop never runs, the loop variable `p` is never bound, and
building the root label raises `NameError` — whether or not a visualization
filename was supplied. -/
theorem claim_c10 {S : Finset ℕ} {arity mtc : ℕ} (dense : Bool) (h2 : 2 ≤ arity)
    (hne : S.Nonempty) (hsup : S.sup id < mtc) (hlt : mtc < arity) :
    merklize S arity mtc dense = Except.error MError.nameError := by
  unfold merklize
  rw [if_neg (by omega), if_neg (by omega), if_neg (by omega),
    if_neg (Finset.nonempty_iff_ne_empty.1 hne), if_pos hsup]
  have hloop : merklizeLoop dense (arity - 2) S mtc 0 = Except.ok 0 := by
    rw [merklizeLoop, dif_neg (by omega)]
  rw [hloop]
  show (if mtc < arity then Except.error MError.nameError else Except.ok 0)
      = Except.error MError.nameError
  rw [if_pos hlt]

theorem claim_c10_witness :
    merklize {0} 2 1 false = Except.error MError.nameError :=
  @claim_c10 {0} 2 1 false (by decide) (by decide) (by decide) (by decide)

end Claims
